import Mathlib

/-!
# Verification of the ABCU advising-assistance core (ProjectTwo.cpp)

Shallow embedding of the data-ingestion and lookup subsystem of
`src/ProjectTwo.cpp`.  C++ `std::string` values are byte sequences; we model
them as `List Nat` (one `Nat` per byte, ASCII codes for the concrete examples).
Pure helper functions (`trim`, `normalizeCourseId`, `splitCSV`) become Lean
functions; the stateful load and query operations become explicit
state-passing functions on a `ProgramState` record.  File input is modelled
as `Option (List Bytes)`: `none` is an unopenable source, `some lines` the
sequence of lines `getline` would produce.
-/

/-- A C++ `std::string`: a sequence of bytes. -/
abbrev Bytes := List Nat

/-- Bytes of a Lean string literal (ASCII inputs only are used below);
used to write concise concrete test inputs. -/
def str (s : String) : Bytes := s.data.map Char.toNat

/-- C `isspace` in the C locale (the code calls it on `unsigned char`):
true exactly for tab, LF, VT, FF, CR and space. -/
def isspace (b : Nat) : Bool :=
  decide (b = 9 ∨ b = 10 ∨ b = 11 ∨ b = 12 ∨ b = 13 ∨ b = 32)

/-- C `toupper` in the C locale: maps bytes 97..122 to 65..90, others fixed. -/
def toupper (b : Nat) : Nat :=
  if 97 ≤ b ∧ b ≤ 122 then b - 32 else b

/-- `ltrim` of ProjectTwo.cpp: drop the leading whitespace prefix. -/
def ltrim (s : Bytes) : Bytes := s.dropWhile isspace

/-- `rtrim` of ProjectTwo.cpp: remove the maximal all-whitespace suffix
(the source scans from the last index backwards; this recursion removes
exactly the same suffix). -/
def rtrim : Bytes → Bytes
  | [] => []
  | c :: cs =>
    match rtrim cs with
    | [] => if isspace c then [] else [c]
    | r => c :: r

/-- `trim` of ProjectTwo.cpp: `rtrim(ltrim(s))`. -/
def trim (s : Bytes) : Bytes := rtrim (ltrim s)

/-- The per-character keep condition of `normalizeCourseId`'s loop:
the negation of its `continue` test (whitespace, `'-'` = 45, `'_'` = 95,
`','` = 44 are skipped). -/
def keepChar (b : Nat) : Bool :=
  !(isspace b || b == 45 || b == 95 || b == 44)

/-- `normalizeCourseId` of ProjectTwo.cpp: drop whitespace/dash/underscore/
comma bytes, upper-case the rest, then `trim` the result. -/
def normalizeCourseId (s : Bytes) : Bytes :=
  trim ((s.filter keepChar).map toupper)

/-- Worker loop of `splitCSV`: first argument is the `inQuotes` flag, second
the remaining input, third the accumulated current field `cur`.
Byte 34 is `'"'`, byte 44 is `','`. -/
def splitCSVAux : Bool → Bytes → Bytes → List Bytes
  | _, [], cur => [trim cur]
  | true, 34 :: 34 :: rest, cur => splitCSVAux true rest (cur ++ [34])
  | true, 34 :: rest, cur => splitCSVAux false rest cur
  | false, 34 :: rest, cur => splitCSVAux true rest cur
  | false, 44 :: rest, cur => trim cur :: splitCSVAux false rest []
  | inQ, c :: rest, cur => splitCSVAux inQ rest (cur ++ [c])

/-- `splitCSV` of ProjectTwo.cpp: quote-aware comma splitting, every produced
field passed through `trim`. -/
def splitCSV (line : Bytes) : List Bytes := splitCSVAux false line []

/-- The `Course` struct of ProjectTwo.cpp. -/
structure Course where
  number : Bytes
  title : Bytes
  prereqNumbers : List Bytes
deriving DecidableEq

/-- `CourseTable = unordered_map<string, Course>`, modelled as an association
list with unique keys.  `operator[]` assignment replaces the value of an
existing key or appends a fresh entry. -/
abbrev CourseTable := List (Bytes × Course)

/-- `unordered_map::find`, as the first entry with the given key. -/
def lookupTable : CourseTable → Bytes → Option Course
  | [], _ => none
  | kv :: rest, k => if kv.1 = k then some kv.2 else lookupTable rest k

/-- `newTable[c.number] = c`: replace the entry holding the key, or append. -/
def insertTable : CourseTable → Bytes → Course → CourseTable
  | [], k, c => [(k, c)]
  | kv :: rest, k, c =>
    if kv.1 = k then (k, c) :: rest else kv :: insertTable rest k c

/-- Outcome of one iteration of the `while (getline ...)` loop of
`loadCoursesFromFile` on a single raw line. -/
inductive LineResult where
  | blank
  | malformed
  | emptyKey
  | record (c : Course)
deriving DecidableEq

/-- One iteration of the load loop: trim the line, skip it if blank, split it,
warn and skip if it has fewer than two fields, build the `Course` (normalized
number, verbatim title, normalized non-empty prerequisites), and drop it
silently if its normalized number is empty. -/
def processLine (rawLine : Bytes) : LineResult :=
  let line := trim rawLine
  if line.isEmpty then .blank
  else
    let fields := splitCSV line
    if fields.length < 2 then .malformed
    else
      let number := normalizeCourseId (fields.getD 0 [])
      let title := fields.getD 1 []
      let prereqs := ((fields.drop 2).map normalizeCourseId).filter
        (fun p => !p.isEmpty)
      if number.isEmpty then .emptyKey
      else .record ⟨number, title, prereqs⟩

/-- Effect of one line on the scratch table `newTable`. -/
def buildStep (t : CourseTable) (l : Bytes) : CourseTable :=
  match processLine l with
  | .record c => insertTable t c.number c
  | _ => t

/-- The load loop run from an intermediate scratch table. -/
def buildFrom (t : CourseTable) (lines : List Bytes) : CourseTable :=
  lines.foldl buildStep t

/-- The scratch table `newTable` after the whole load loop. -/
def buildTable (lines : List Bytes) : CourseTable := buildFrom [] lines

/-- The `Course` records the load loop actually inserts, in input order. -/
def recordsOf (lines : List Bytes) : List Course :=
  lines.filterMap fun l =>
    match processLine l with
    | .record c => some c
    | _ => none

/-- Line numbers of the `"Warning: malformed line"` messages, counting from
`base` (the loop counts `lineNum` from 1). -/
def loadWarningsAux : Nat → List Bytes → List Nat
  | _, [] => []
  | n, l :: ls =>
    if processLine l = .malformed then n :: loadWarningsAux (n + 1) ls
    else loadWarningsAux (n + 1) ls

/-- 1-based line numbers of all warnings emitted by a load. -/
def loadWarnings (lines : List Bytes) : List Nat := loadWarningsAux 1 lines

/-- `operator<` of `std::string`: lexicographic byte comparison, a proper
prefix comparing less. -/
def strLt : Bytes → Bytes → Bool
  | _, [] => false
  | [], _ :: _ => true
  | a :: as, b :: bs =>
    if a < b then true else if b < a then false else strLt as bs

/-- `operator<=` of `std::string`. -/
def strLe : Bytes → Bytes → Bool
  | [], _ => true
  | _ :: _, [] => false
  | a :: as, b :: bs =>
    if a < b then true else if b < a then false else strLe as bs

/-- Insertion into a `strLe`-sorted list of keys. -/
def insertSorted (a : Bytes) : List Bytes → List Bytes
  | [] => [a]
  | b :: l => if strLe a b then a :: b :: l else b :: insertSorted a l

/-- `std::sort` on the collected keys.  On lists of distinct keys every
correct sort yields the same output — the unique `strLe`-ascending
permutation — so insertion sort is a faithful model of the call. -/
def sortKeys : List Bytes → List Bytes
  | [] => []
  | b :: l => insertSorted b (sortKeys l)

/-- The `ProgramState` struct of ProjectTwo.cpp. -/
structure ProgramState where
  loaded : Bool
  courses : CourseTable
  sortedKeys : List Bytes
deriving DecidableEq

/-- `loadCoursesFromFile`: `none` models a file that cannot be opened (the
function returns `false` before touching the state); `some lines` models a
readable file, after which the state holds the new table, the cached sorted
keys, and `loaded = true`. -/
def loadCoursesFromFile : Option (List Bytes) → ProgramState → Bool × ProgramState
  | none, st => (false, st)
  | some lines, _st =>
    let t := buildTable lines
    (true, { loaded := true, courses := t,
             sortedKeys := sortKeys (t.map (fun kv => kv.1)) })

/-- One resolved prerequisite in the option-3 output: either the `(number,
title)` of a course found in the table, or the original id with the
`"(missing)"` marker. -/
inductive PrereqInfo where
  | found (number title : Bytes)
  | missing (id : Bytes)
deriving DecidableEq

/-- The prerequisites part of the option-3 output: the explicit
`"Prerequisites: None"` line, or the resolved entries in original order. -/
inductive PrereqDisplay where
  | noPrereqs
  | resolved (entries : List PrereqInfo)
deriving DecidableEq

/-- Everything `printSingleCourse` can print for a query. -/
inductive DescribeResult where
  | notLoaded
  | emptyQuery
  | notFound
  | found (number title : Bytes) (prereqs : PrereqDisplay)
deriving DecidableEq

/-- Resolution of one prerequisite id against the table (the body of the
output loop of `printSingleCourse`). -/
def resolvePrereq (t : CourseTable) (pid : Bytes) : PrereqInfo :=
  match lookupTable t pid with
  | some p => .found p.number p.title
  | none => .missing pid

/-- `printSingleCourse`, with the interactively read query as a parameter and
the printed outcome as a structured result. -/
def printSingleCourse (st : ProgramState) (query : Bytes) : DescribeResult :=
  if st.loaded then
    let q := normalizeCourseId query
    if q.isEmpty then .emptyQuery
    else
      match lookupTable st.courses q with
      | none => .notFound
      | some c =>
        .found c.number c.title
          (if c.prereqNumbers.isEmpty then .noPrereqs
           else .resolved (c.prereqNumbers.map (resolvePrereq st.courses)))
  else .notLoaded

/-- The operations the menu loop can apply to the program state.  Options 2
and 3 take the state by `const` reference and cannot change it; option 1 is
`loadCoursesFromFile` on some source. -/
inductive Operation where
  | load (source : Option (List Bytes))
  | listCourses
  | describe (q : Bytes)

/-- State transition of one menu operation. -/
def applyOp (st : ProgramState) : Operation → ProgramState
  | .load src => (loadCoursesFromFile src st).2
  | .listCourses => st
  | .describe _ => st

/-! ## Lemmas about the trim helpers -/

theorem dropWhile_dropWhile (p : Nat → Bool) (l : Bytes) :
    (l.dropWhile p).dropWhile p = l.dropWhile p := by
  induction l with
  | nil => rfl
  | cons c cs ih =>
    rw [List.dropWhile_cons]
    split
    · exact ih
    · rename_i hc
      rw [List.dropWhile_cons, if_neg hc]

theorem dropWhile_length_le (p : Nat → Bool) :
    ∀ l : Bytes, (l.dropWhile p).length ≤ l.length
  | [] => Nat.le_refl _
  | c :: cs => by
    rw [List.dropWhile_cons]
    split
    · exact Nat.le_trans (dropWhile_length_le p cs) (Nat.le_succ _)
    · exact Nat.le_refl _

theorem rtrim_cons_nil {cs : Bytes} (c : Nat) (h : rtrim cs = []) :
    rtrim (c :: cs) = if isspace c then [] else [c] := by
  rw [rtrim, h]

theorem rtrim_cons_ne {cs : Bytes} (c : Nat) (h : rtrim cs ≠ []) :
    rtrim (c :: cs) = c :: rtrim cs := by
  rw [rtrim]
  cases hcs : rtrim cs with
  | nil => exact absurd hcs h
  | cons a l => rfl

theorem rtrim_cons_of_not_space {c : Nat} (hc : isspace c = false) (cs : Bytes) :
    rtrim (c :: cs) = c :: rtrim cs := by
  cases hcs : rtrim cs with
  | nil => rw [rtrim_cons_nil c hcs, hc]; simp
  | cons a l => rw [rtrim_cons_ne c (by rw [hcs]; exact List.cons_ne_nil a l), hcs]

theorem rtrim_cons_head {c : Nat} {cs : Bytes} (h : rtrim (c :: cs) ≠ []) :
    ∃ rs, rtrim (c :: cs) = c :: rs := by
  cases hcs : rtrim cs with
  | nil =>
    rw [rtrim_cons_nil c hcs] at h ⊢
    cases hsp : isspace c with
    | true => rw [hsp] at h; simp at h
    | false => exact ⟨[], by simp⟩
  | cons a l =>
    rw [rtrim_cons_ne c (by rw [hcs]; exact List.cons_ne_nil a l)]
    exact ⟨rtrim cs, rfl⟩

theorem rtrim_rtrim (l : Bytes) : rtrim (rtrim l) = rtrim l := by
  induction l with
  | nil => rfl
  | cons c cs ih =>
    cases hcs : rtrim cs with
    | nil =>
      rw [rtrim_cons_nil c hcs]
      cases hsp : isspace c with
      | true => simp [rtrim]
      | false =>
        have h1 : rtrim [c] = [c] := by
          rw [@rtrim_cons_nil [] c rfl, hsp]
          simp
        simpa using h1
    | cons a l =>
      have hne : rtrim cs ≠ [] := by rw [hcs]; exact List.cons_ne_nil a l
      rw [rtrim_cons_ne c hne, rtrim_cons_ne c (by rw [ih]; exact hne), ih]

theorem ltrim_rtrim {l : Bytes} (h : ltrim l = l) : ltrim (rtrim l) = rtrim l := by
  cases l with
  | nil => rfl
  | cons c cs =>
    have hc : isspace c = false := by
      cases hsp : isspace c
      · rfl
      · exfalso
        have h' := h
        rw [ltrim, List.dropWhile_cons, if_pos hsp] at h'
        have hlen := congrArg List.length h'
        simp only [List.length_cons] at hlen
        have hle := dropWhile_length_le isspace cs
        omega
    by_cases hnil : rtrim (c :: cs) = []
    · rw [hnil]; rfl
    · obtain ⟨rs, hrs⟩ := rtrim_cons_head hnil
      rw [hrs, ltrim, List.dropWhile_cons, if_neg (by rw [hc]; exact Bool.false_ne_true)]

theorem trim_trim (s : Bytes) : trim (trim s) = trim s := by
  unfold trim
  have h1 : ltrim (ltrim s) = ltrim s := dropWhile_dropWhile _ _
  rw [ltrim_rtrim h1, rtrim_rtrim]

theorem ltrim_of_no_space {l : Bytes} (h : ∀ c ∈ l, isspace c = false) :
    ltrim l = l := by
  cases l with
  | nil => rfl
  | cons c cs =>
    rw [ltrim, List.dropWhile_cons, if_neg]
    rw [h c (List.mem_cons_self c cs)]
    simp

theorem rtrim_of_no_space {l : Bytes} (h : ∀ c ∈ l, isspace c = false) :
    rtrim l = l := by
  induction l with
  | nil => rfl
  | cons c cs ih =>
    rw [rtrim_cons_of_not_space (h c (List.mem_cons_self c cs))]
    rw [ih fun x hx => h x (List.mem_cons_of_mem c hx)]

theorem trim_of_no_space {l : Bytes} (h : ∀ c ∈ l, isspace c = false) :
    trim l = l := by
  unfold trim
  rw [ltrim_of_no_space h, rtrim_of_no_space h]

/-! ## Lemmas about the Normalizer -/

theorem isspace_iff (b : Nat) :
    isspace b = true ↔ (b = 9 ∨ b = 10 ∨ b = 11 ∨ b = 12 ∨ b = 13 ∨ b = 32) := by
  simp [isspace]

theorem keepChar_iff (b : Nat) :
    keepChar b = true ↔ (isspace b = false ∧ b ≠ 45 ∧ b ≠ 95 ∧ b ≠ 44) := by
  simp [keepChar, not_or, Bool.not_eq_true]
  tauto

theorem toupper_toupper (b : Nat) : toupper (toupper b) = toupper b := by
  unfold toupper
  by_cases h : 97 ≤ b ∧ b ≤ 122
  · rw [if_pos h, if_neg (by omega)]
  · rw [if_neg h, if_neg h]

theorem keepChar_toupper {b : Nat} (h : keepChar b = true) :
    keepChar (toupper b) = true := by
  rw [keepChar_iff] at h ⊢
  unfold toupper
  by_cases hb : 97 ≤ b ∧ b ≤ 122
  · rw [if_pos hb]
    refine ⟨?_, by omega, by omega, by omega⟩
    rw [← Bool.not_eq_true, isspace_iff]
    omega
  · rw [if_neg hb]
    exact h

theorem map_eq_self_of {l : Bytes} {f : Nat → Nat} (h : ∀ a ∈ l, f a = a) :
    l.map f = l := by
  induction l with
  | nil => rfl
  | cons c cs ih =>
    rw [List.map_cons, h c (List.mem_cons_self c cs),
      ih fun x hx => h x (List.mem_cons_of_mem c hx)]

theorem mem_normalized {s : Bytes} {c : Nat}
    (h : c ∈ (s.filter keepChar).map toupper) :
    keepChar c = true ∧ toupper c = c := by
  obtain ⟨c', hc', rfl⟩ := List.mem_map.mp h
  have hk : keepChar c' = true := List.of_mem_filter hc'
  exact ⟨keepChar_toupper hk, toupper_toupper c'⟩

theorem normalizeCourseId_eq_core (s : Bytes) :
    normalizeCourseId s = (s.filter keepChar).map toupper := by
  unfold normalizeCourseId
  exact trim_of_no_space fun c hc => ((keepChar_iff c).mp (mem_normalized hc).1).1

theorem normalizeCourseId_idem (s : Bytes) :
    normalizeCourseId (normalizeCourseId s) = normalizeCourseId s := by
  rw [normalizeCourseId_eq_core s, normalizeCourseId_eq_core]
  rw [List.filter_eq_self.mpr fun a ha => (mem_normalized ha).1]
  exact map_eq_self_of fun a ha => (mem_normalized ha).2

/-! ## Lemmas about the Record Parser -/

theorem splitCSVAux_length (inQ : Bool) (l cur : Bytes) :
    1 ≤ (splitCSVAux inQ l cur).length := by
  induction inQ, l, cur using splitCSVAux.induct <;>
    simp [splitCSVAux, *]

theorem splitCSV_length (line : Bytes) : 1 ≤ (splitCSV line).length :=
  splitCSVAux_length false line []

theorem splitCSVAux_trimmed (inQ : Bool) (l cur : Bytes) :
    ∀ f ∈ splitCSVAux inQ l cur, trim f = f := by
  induction inQ, l, cur using splitCSVAux.induct with
  | case1 inQ cur =>
    intro f hf
    rw [splitCSVAux] at hf
    rcases List.mem_singleton.mp hf with rfl
    exact trim_trim _
  | case2 rest cur ih =>
    intro f hf
    rw [splitCSVAux] at hf
    exact ih f hf
  | case3 rest cur h ih =>
    intro f hf
    rw [splitCSVAux] at hf
    exacts [ih f hf, h]
  | case4 rest cur ih =>
    intro f hf
    rw [splitCSVAux] at hf
    exact ih f hf
  | case5 rest cur ih =>
    intro f hf
    rw [splitCSVAux] at hf
    rcases List.mem_cons.mp hf with rfl | hf'
    · exact trim_trim _
    · exact ih f hf'
  | case6 inQ c rest cur h1 h2 h3 h4 ih =>
    intro f hf
    rw [splitCSVAux] at hf
    exacts [ih f hf, h1, h2, h3, h4]

theorem splitCSV_trimmed (line : Bytes) : ∀ f ∈ splitCSV line, trim f = f :=
  splitCSVAux_trimmed false line []

/-! ## Lemmas about the course table -/

theorem lookup_insertTable_self : ∀ (t : CourseTable) (k : Bytes) (c : Course),
    lookupTable (insertTable t k c) k = some c
  | [], k, c => by simp [insertTable, lookupTable]
  | kv :: rest, k, c => by
    rw [insertTable]
    split
    · simp [lookupTable]
    · rename_i hne
      rw [lookupTable, if_neg hne]
      exact lookup_insertTable_self rest k c

theorem lookup_insertTable_ne {k' k : Bytes} (hk : k' ≠ k) :
    ∀ (t : CourseTable) (c : Course),
      lookupTable (insertTable t k c) k' = lookupTable t k'
  | [], c => by
    simp only [insertTable, lookupTable]
    rw [if_neg fun h => hk h.symm]
  | kv :: rest, c => by
    rw [insertTable]
    split
    · rename_i heq
      rw [lookupTable, if_neg fun h => hk h.symm, lookupTable,
        if_neg (heq ▸ fun h => hk h.symm)]
    · rename_i hne
      rw [lookupTable, lookupTable]
      split
      · rfl
      · exact lookup_insertTable_ne hk rest c

theorem keys_insertTable : ∀ (t : CourseTable) (k : Bytes) (c : Course),
    (insertTable t k c).map (fun kv => kv.1) =
      if (lookupTable t k).isSome then t.map (fun kv => kv.1)
      else t.map (fun kv => kv.1) ++ [k]
  | [], k, c => by simp [insertTable, lookupTable]
  | kv :: rest, k, c => by
    rw [insertTable]
    split
    · rename_i heq
      rw [lookupTable, if_pos heq]
      simp [heq]
    · rename_i hne
      rw [lookupTable, if_neg hne]
      simp only [List.map_cons, keys_insertTable rest k c]
      split <;> simp

theorem mem_insertTable : ∀ {t : CourseTable} {k : Bytes} {c : Course}
    {kv' : Bytes × Course}, kv' ∈ insertTable t k c → kv' ∈ t ∨ kv' = (k, c) := by
  intro t
  induction t with
  | nil =>
    intro k c kv' h
    rw [insertTable] at h
    exact Or.inr (List.mem_singleton.mp h)
  | cons kv rest ih =>
    intro k c kv' h
    rw [insertTable] at h
    split at h
    · rcases List.mem_cons.mp h with rfl | h'
      · exact Or.inr rfl
      · exact Or.inl (List.mem_cons_of_mem kv h')
    · rcases List.mem_cons.mp h with rfl | h'
      · exact Or.inl (List.mem_cons_self kv' rest)
      · rcases ih h' with h'' | rfl
        · exact Or.inl (List.mem_cons_of_mem kv h'')
        · exact Or.inr rfl

theorem lookup_eq_none_iff : ∀ (t : CourseTable) (k : Bytes),
    lookupTable t k = none ↔ k ∉ t.map (fun kv => kv.1)
  | [], k => by simp [lookupTable]
  | kv :: rest, k => by
    rw [lookupTable]
    split
    · rename_i heq
      simp [heq]
    · rename_i hne
      simp only [List.map_cons, List.mem_cons]
      rw [lookup_eq_none_iff rest k]
      constructor
      · rintro h (h' | h')
        · exact hne h'.symm
        · exact h h'
      · intro h h'
        exact h (Or.inr h')

theorem nodup_keys_insertTable {t : CourseTable} {k : Bytes} {c : Course}
    (h : (t.map (fun kv => kv.1)).Nodup) :
    ((insertTable t k c).map (fun kv => kv.1)).Nodup := by
  rw [keys_insertTable]
  split
  · exact h
  · rename_i hsome
    have hnone : lookupTable t k = none := by
      cases hl : lookupTable t k
      · rfl
      · rw [hl] at hsome; simp at hsome
    have hk : k ∉ t.map (fun kv => kv.1) := (lookup_eq_none_iff t k).mp hnone
    simp [List.nodup_append, h, hk]

/-! ## Lemmas about the Catalog Builder -/

theorem processLine_record_number {l : Bytes} {c : Course}
    (h : processLine l = .record c) :
    c.number ≠ [] := by
  simp only [processLine] at h
  split at h
  · exact absurd h (by simp)
  · split at h
    · exact absurd h (by simp)
    · split at h
      · exact absurd h (by simp)
      · rename_i hnum
        cases h
        simpa [List.isEmpty_iff] using hnum

theorem mem_buildFrom_inv (P : Bytes × Course → Prop)
    (hrec : ∀ l c, processLine l = .record c → P (c.number, c)) :
    ∀ (lines : List Bytes) (t : CourseTable), (∀ kv ∈ t, P kv) →
      ∀ kv ∈ buildFrom t lines, P kv
  | [], t, ht => ht
  | l :: ls, t, ht => by
    have hstep : ∀ kv ∈ buildStep t l, P kv := by
      intro kv hkv
      cases hpl : processLine l with
      | record c =>
        simp only [buildStep, hpl] at hkv
        rcases mem_insertTable hkv with h' | rfl
        · exact ht kv h'
        · exact hrec l c hpl
      | blank => simp only [buildStep, hpl] at hkv; exact ht kv hkv
      | malformed => simp only [buildStep, hpl] at hkv; exact ht kv hkv
      | emptyKey => simp only [buildStep, hpl] at hkv; exact ht kv hkv
    exact mem_buildFrom_inv P hrec ls (buildStep t l) hstep

theorem buildTable_number_eq_key (lines : List Bytes) :
    ∀ kv ∈ buildTable lines, kv.2.number = kv.1 :=
  mem_buildFrom_inv (fun kv => kv.2.number = kv.1) (fun _ _ _ => rfl) lines []
    (by intro kv h; cases h)

theorem buildTable_key_ne_nil (lines : List Bytes) :
    ∀ kv ∈ buildTable lines, kv.1 ≠ [] :=
  mem_buildFrom_inv (fun kv => kv.1 ≠ [])
    (fun l c hl => processLine_record_number hl) lines []
    (by intro kv h; cases h)

theorem nodup_keys_buildFrom :
    ∀ (lines : List Bytes) (t : CourseTable),
      (t.map (fun kv => kv.1)).Nodup →
      ((buildFrom t lines).map (fun kv => kv.1)).Nodup
  | [], t, ht => ht
  | l :: ls, t, ht => by
    have hstep : ((buildStep t l).map (fun kv => kv.1)).Nodup := by
      cases hpl : processLine l with
      | record c => simp only [buildStep, hpl]; exact nodup_keys_insertTable ht
      | blank => simpa only [buildStep, hpl] using ht
      | malformed => simpa only [buildStep, hpl] using ht
      | emptyKey => simpa only [buildStep, hpl] using ht
    exact nodup_keys_buildFrom ls (buildStep t l) hstep

theorem nodup_keys_buildTable (lines : List Bytes) :
    ((buildTable lines).map (fun kv => kv.1)).Nodup :=
  nodup_keys_buildFrom lines [] (by simp)

theorem buildFrom_records : ∀ (lines : List Bytes) (t : CourseTable),
    buildFrom t lines =
      (recordsOf lines).foldl (fun t c => insertTable t c.number c) t
  | [], t => rfl
  | l :: ls, t => by
    cases hpl : processLine l <;>
      simp only [recordsOf, List.filterMap_cons, hpl] <;>
      rw [show buildFrom t (l :: ls) = buildFrom (buildStep t l) ls from rfl] <;>
      simp only [buildStep, hpl] <;>
      [skip; skip; skip; rw [List.foldl_cons]] <;>
      exact buildFrom_records ls _

theorem getLast?_cons_of_ne_nil {l : List Course} (a : Course) (h : l ≠ []) :
    (a :: l).getLast? = l.getLast? := by
  cases l with
  | nil => exact absurd rfl h
  | cons b bs => exact List.getLast?_cons_cons

theorem lookup_foldl_ins : ∀ (rs : List Course) (t : CourseTable) (k : Bytes),
    lookupTable (rs.foldl (fun t c => insertTable t c.number c) t) k =
      match (rs.filter (fun r => r.number == k)).getLast? with
      | some c => some c
      | none => lookupTable t k
  | [], t, k => by simp
  | r :: rs, t, k => by
    rw [List.foldl_cons, lookup_foldl_ins rs (insertTable t r.number r) k,
      List.filter_cons]
    by_cases hk : r.number = k
    · rw [if_pos (by simpa using hk)]
      cases hl : (rs.filter (fun r => r.number == k)).getLast? with
      | some c =>
        rw [getLast?_cons_of_ne_nil r
          (by intro hnil; rw [hnil] at hl; simp at hl), hl]
      | none =>
        have : rs.filter (fun r => r.number == k) = [] :=
          List.getLast?_eq_none_iff.mp hl
        rw [this]
        simp only [List.getLast?_singleton]
        rw [hk] at *
        exact lookup_insertTable_self t k r
    · rw [if_neg (by simpa using hk)]
      cases hl : (rs.filter (fun r => r.number == k)).getLast? with
      | some c => rfl
      | none => exact lookup_insertTable_ne (fun h => hk h.symm) t r

theorem lookup_buildTable (lines : List Bytes) (k : Bytes) :
    lookupTable (buildTable lines) k =
      ((recordsOf lines).filter (fun r => r.number == k)).getLast? := by
  rw [buildTable, buildFrom_records, lookup_foldl_ins]
  cases ((recordsOf lines).filter (fun r => r.number == k)).getLast? <;>
    simp [lookupTable]

/-! ## Lemmas about the load warnings -/

theorem mem_loadWarningsAux : ∀ (ls : List Bytes) (base m : Nat),
    m ∈ loadWarningsAux base ls ↔
      ∃ i, i < ls.length ∧ m = base + i ∧
        processLine (ls.getD i []) = .malformed
  | [], base, m => by simp [loadWarningsAux]
  | l :: ls, base, m => by
    rw [loadWarningsAux]
    by_cases hpl : processLine l = .malformed
    · rw [if_pos hpl]
      simp only [List.mem_cons, mem_loadWarningsAux ls (base + 1) m]
      constructor
      · rintro (rfl | ⟨i, hi, rfl, hp⟩)
        · exact ⟨0, by simp, by omega, by simpa using hpl⟩
        · exact ⟨i + 1, by simp only [List.length_cons]; omega, by omega,
            by simpa using hp⟩
      · rintro ⟨i, hi, rfl, hp⟩
        cases i with
        | zero => left; omega
        | succ j =>
          right
          exact ⟨j, by simp only [List.length_cons] at hi; omega, by omega,
            by simpa using hp⟩
    · rw [if_neg hpl]
      rw [mem_loadWarningsAux ls (base + 1) m]
      constructor
      · rintro ⟨i, hi, rfl, hp⟩
        exact ⟨i + 1, by simp only [List.length_cons]; omega, by omega,
          by simpa using hp⟩
      · rintro ⟨i, hi, rfl, hp⟩
        cases i with
        | zero => exact absurd (by simpa using hp) hpl
        | succ j =>
          exact ⟨j, by simp only [List.length_cons] at hi; omega, by omega,
            by simpa using hp⟩

theorem mem_loadWarnings (lines : List Bytes) (m : Nat) :
    m ∈ loadWarnings lines ↔
      ∃ i, i < lines.length ∧ m = 1 + i ∧
        processLine (lines.getD i []) = .malformed :=
  mem_loadWarningsAux lines 1 m

/-! ## Lemmas about the lexicographic key order and the sorted index -/

theorem strLe_nil_left (b : Bytes) : strLe [] b = true := by
  cases b <;> rfl

theorem strLe_cons_iff (x y : Nat) (as bs : Bytes) :
    strLe (x :: as) (y :: bs) = true ↔
      (x < y ∨ (x = y ∧ strLe as bs = true)) := by
  rw [strLe]
  by_cases h1 : x < y
  · simp [h1]
  · rw [if_neg h1]
    by_cases h2 : y < x
    · rw [if_pos h2]
      simp only [Bool.false_eq_true, false_iff]
      rintro (h | ⟨rfl, h⟩) <;> omega
    · rw [if_neg h2]
      constructor
      · intro h
        exact Or.inr ⟨by omega, h⟩
      · rintro (h | ⟨rfl, h⟩)
        · omega
        · exact h

theorem strLt_cons_iff (x y : Nat) (as bs : Bytes) :
    strLt (x :: as) (y :: bs) = true ↔
      (x < y ∨ (x = y ∧ strLt as bs = true)) := by
  rw [strLt]
  by_cases h1 : x < y
  · simp [h1]
  · rw [if_neg h1]
    by_cases h2 : y < x
    · rw [if_pos h2]
      simp only [Bool.false_eq_true, false_iff]
      rintro (h | ⟨rfl, h⟩) <;> omega
    · rw [if_neg h2]
      constructor
      · intro h
        exact Or.inr ⟨by omega, h⟩
      · rintro (h | ⟨rfl, h⟩)
        · omega
        · exact h

theorem strLe_total : ∀ a b : Bytes, strLe a b = true ∨ strLe b a = true
  | [], b => Or.inl (strLe_nil_left b)
  | a :: as, [] => Or.inr (strLe_nil_left (a :: as))
  | x :: as, y :: bs => by
    rcases Nat.lt_trichotomy x y with h | rfl | h
    · exact Or.inl ((strLe_cons_iff x y as bs).mpr (Or.inl h))
    · rcases strLe_total as bs with h' | h'
      · exact Or.inl ((strLe_cons_iff x x as bs).mpr (Or.inr ⟨rfl, h'⟩))
      · exact Or.inr ((strLe_cons_iff x x bs as).mpr (Or.inr ⟨rfl, h'⟩))
    · exact Or.inr ((strLe_cons_iff y x bs as).mpr (Or.inl h))

theorem strLe_trans : ∀ a b c : Bytes,
    strLe a b = true → strLe b c = true → strLe a c = true
  | [], _, c, _, _ => strLe_nil_left c
  | a :: as, [], _, h1, _ => by cases h1
  | a :: as, b :: bs, [], _, h2 => by cases h2
  | x :: as, y :: bs, z :: cs, h1, h2 => by
    rw [strLe_cons_iff] at h1 h2 ⊢
    rcases h1 with h1 | ⟨rfl, h1⟩
    · rcases h2 with h2 | ⟨rfl, h2⟩
      · exact Or.inl (by omega)
      · exact Or.inl h1
    · rcases h2 with h2 | ⟨rfl, h2⟩
      · exact Or.inl h2
      · exact Or.inr ⟨rfl, strLe_trans as bs cs h1 h2⟩

theorem strLe_antisymm : ∀ a b : Bytes,
    strLe a b = true → strLe b a = true → a = b
  | [], [], _, _ => rfl
  | [], b :: bs, _, h2 => by cases h2
  | a :: as, [], h1, _ => by cases h1
  | x :: as, y :: bs, h1, h2 => by
    rw [strLe_cons_iff] at h1 h2
    rcases h1 with h1 | ⟨rfl, h1⟩
    · rcases h2 with h2 | ⟨heq, h2⟩ <;> omega
    · rcases h2 with h2 | ⟨heq, h2⟩
      · omega
      · rw [strLe_antisymm as bs h1 h2]

theorem strLt_iff_le_ne : ∀ a b : Bytes,
    strLt a b = true ↔ (strLe a b = true ∧ a ≠ b)
  | [], [] => by simp [strLt, strLe]
  | [], b :: bs => by simp [strLt, strLe_nil_left]
  | a :: as, [] => by
    constructor
    · intro h; cases h
    · rintro ⟨h, _⟩; cases h
  | x :: as, y :: bs => by
    rw [strLt_cons_iff, strLe_cons_iff]
    constructor
    · rintro (h | ⟨rfl, h⟩)
      · exact ⟨Or.inl h, by simp [List.cons.injEq]; omega⟩
      · rcases (strLt_iff_le_ne as bs).mp h with ⟨hle, hne⟩
        exact ⟨Or.inr ⟨rfl, hle⟩, by simp [List.cons.injEq, hne]⟩
    · rintro ⟨h | ⟨rfl, hle⟩, hne⟩
      · exact Or.inl h
      · refine Or.inr ⟨rfl, (strLt_iff_le_ne as bs).mpr ⟨hle, ?_⟩⟩
        intro rfl'
        exact hne (by rw [rfl'])

theorem mem_insertSorted (a : Bytes) :
    ∀ (l : List Bytes) (x : Bytes), x ∈ insertSorted a l ↔ x = a ∨ x ∈ l
  | [], x => by simp [insertSorted]
  | b :: l, x => by
    rw [insertSorted]
    split
    · simp [List.mem_cons]
    · simp only [List.mem_cons, mem_insertSorted a l x]
      tauto

theorem perm_insertSorted (a : Bytes) :
    ∀ l : List Bytes, List.Perm (insertSorted a l) (a :: l)
  | [] => List.Perm.refl _
  | b :: l => by
    rw [insertSorted]
    split
    · exact List.Perm.refl _
    · exact ((perm_insertSorted a l).cons b).trans (List.Perm.swap a b l)

theorem pairwise_insertSorted (a : Bytes) :
    ∀ l : List Bytes, l.Pairwise (fun x y => strLe x y = true) →
      (insertSorted a l).Pairwise (fun x y => strLe x y = true)
  | [], _ => by simp [insertSorted]
  | b :: l, h => by
    rw [insertSorted]
    rcases List.pairwise_cons.mp h with ⟨hb, hl⟩
    split
    · rename_i hab
      refine List.pairwise_cons.mpr ⟨?_, h⟩
      intro x hx
      rcases List.mem_cons.mp hx with rfl | hx'
      · exact hab
      · exact strLe_trans a b x hab (hb x hx')
    · rename_i hab
      have hba : strLe b a = true := by
        rcases strLe_total a b with h' | h'
        · exact absurd h' hab
        · exact h'
      refine List.pairwise_cons.mpr ⟨?_, pairwise_insertSorted a l hl⟩
      intro x hx
      rcases (mem_insertSorted a l x).mp hx with rfl | hx'
      · exact hba
      · exact hb x hx'

theorem perm_sortKeys : ∀ l : List Bytes, List.Perm (sortKeys l) l
  | [] => List.Perm.refl _
  | b :: l => by
    rw [sortKeys]
    exact (perm_insertSorted b (sortKeys l)).trans ((perm_sortKeys l).cons b)

theorem pairwise_sortKeys :
    ∀ l : List Bytes, (sortKeys l).Pairwise (fun x y => strLe x y = true)
  | [] => by simp [sortKeys]
  | b :: l => by
    rw [sortKeys]
    exact pairwise_insertSorted b (sortKeys l) (pairwise_sortKeys l)

/-! ## Auxiliary facts used by the claim theorems -/

theorem isEmpty_false_of_ne {l : Bytes} (h : l ≠ []) : l.isEmpty = false := by
  cases l with
  | nil => exact absurd rfl h
  | cons a as => rfl

theorem countP_key_eq_one :
    ∀ (t : CourseTable) (k : Bytes) (c : Course),
      (t.map (fun kv => kv.1)).Nodup → lookupTable t k = some c →
      t.countP (fun kv => decide (kv.1 = k)) = 1
  | [], k, c, _, hl => by cases hl
  | kv :: rest, k, c, hnd, hl => by
    rw [List.countP_cons]
    rw [lookupTable] at hl
    rcases List.pairwise_cons.mp hnd with ⟨hst, hnd'⟩
    split at hl
    · rename_i heq
      have hz : rest.countP (fun kv => decide (kv.1 = k)) = 0 := by
        rw [List.countP_eq_zero]
        intro kv' hkv'
        have : kv.1 ≠ kv'.1 := hst kv'.1 (List.mem_map_of_mem _ hkv')
        simp only [decide_eq_true_eq]
        rw [← heq]
        exact fun h => this h.symm
      rw [hz, if_pos (by simpa using heq)]
    · rename_i hne
      rw [countP_key_eq_one rest k c hnd' hl, if_neg (by simpa using hne)]

/-! ## The claims -/

/-- C1, counterexample.  The raw line `",X"` is non-blank, parses to two
fields, and its first field normalizes to the empty key, so the claim
demands that a load of this single line records a warning tagged with line
number 1.  The code skips the line without recording any warning. -/
theorem c1_counterexample :
    trim (str ",X") ≠ [] ∧
    2 ≤ (splitCSV (trim (str ",X"))).length ∧
    normalizeCourseId ((splitCSV (trim (str ",X"))).getD 0 []) = [] ∧
    loadWarnings [str ",X"] = [] ∧
    buildTable [str ",X"] = [] := by decide

/-- C1, amended.  A line whose first field normalizes to the empty string is
skipped, but silently: its 1-based line number is never among the recorded
warnings (the warning path fires only for lines with fewer than two fields),
and no entry with an empty key ever enters the table. -/
theorem c1_empty_key_skipped_silently :
    ∀ (lines : List Bytes) (n : Nat),
      n < lines.length →
      processLine (lines.getD n []) = .emptyKey →
      ((n + 1) ∉ loadWarnings lines ∧
       ∀ kv ∈ buildTable lines, kv.1 ≠ []) := by
  intro lines n hn hpl
  refine ⟨?_, buildTable_key_ne_nil lines⟩
  intro hmem
  rcases (mem_loadWarnings lines (n + 1)).mp hmem with ⟨i, hi, heq, hp⟩
  have hin : i = n := by omega
  rw [hin, hpl] at hp
  cases hp

/-- C1, witness for the amended theorem at the single line `",X"`. -/
theorem c1_amended_witness :
    (0 < ([str ",X"] : List Bytes).length ∧
     processLine (([str ",X"] : List Bytes).getD 0 []) = .emptyKey) ∧
    ((0 + 1) ∉ loadWarnings [str ",X"] ∧
     ∀ kv ∈ buildTable [str ",X"], kv.1 ≠ []) :=
  ⟨⟨by decide, by decide⟩,
    c1_empty_key_skipped_silently [str ",X"] 0 (by decide) (by decide)⟩

/-- C2, counterexample.  The single field `" b "` written as a quoted span
comes back as `"b"`: the whitespace just inside the quotes is removed, not
preserved as the claim states, because `splitCSV` trims the accumulated
field text after the quote characters are dropped. -/
theorem c2_counterexample :
    splitCSV (str "\" b \"") = [str "b"] ∧
    (splitCSV (str "\" b \"")).getD 0 [] ≠ str " b " := by decide

/-- C2, amended.  Trimming is applied to the fully assembled field text with
the quote characters removed, so every produced field is a `trim` fixed
point — whitespace at the edges of a quoted span is removed whenever it ends
up at the edges of the field, while interior whitespace (e.g. around a comma
inside quotes) is preserved. -/
theorem c2_fields_fully_trimmed :
    (∀ (line : Bytes), ∀ f ∈ splitCSV line, trim f = f) ∧
    splitCSV (str "\" a, b \"") = [str "a, b"] :=
  ⟨fun line f hf => splitCSV_trimmed line f hf, by decide⟩

/-- C3 (confirmed).  Any load from a readable source succeeds, and a
subsequent load attempt whose source cannot be opened returns failure and
leaves the whole program state — `courses`, `sortedKeys` and `loaded` —
exactly as the successful load left it. -/
theorem c3_unreadable_load_preserves_catalog :
    ∀ (lines : List Bytes) (st0 : ProgramState),
      (loadCoursesFromFile (some lines) st0).1 = true ∧
      loadCoursesFromFile none ((loadCoursesFromFile (some lines) st0).2) =
        (false, (loadCoursesFromFile (some lines) st0).2) :=
  fun _ _ => ⟨rfl, rfl⟩

/-- C4 (confirmed).  After every successful load: every stored course is
keyed by its own `number`; and `sortedKeys` is a permutation of the table's
keys that is strictly ascending in the lexicographic byte order (hence the
exact key set, sorted, with no additions, omissions or duplicates). -/
theorem c4_table_keyed_and_sorted_index :
    ∀ (lines : List Bytes) (st0 : ProgramState),
      (∀ kv ∈ ((loadCoursesFromFile (some lines) st0).2).courses,
        kv.2.number = kv.1) ∧
      ((loadCoursesFromFile (some lines) st0).2).sortedKeys.Pairwise
        (fun a b => strLt a b = true) ∧
      List.Perm ((loadCoursesFromFile (some lines) st0).2).sortedKeys
        (((loadCoursesFromFile (some lines) st0).2).courses.map
          (fun kv => kv.1)) := by
  intro lines st0
  refine ⟨buildTable_number_eq_key lines, ?_, perm_sortKeys _⟩
  have hnd : ((buildTable lines).map (fun kv => kv.1)).Nodup :=
    nodup_keys_buildTable lines
  have hnd' : (sortKeys ((buildTable lines).map (fun kv => kv.1))).Nodup :=
    ((perm_sortKeys _).nodup_iff).mpr hnd
  have hle := pairwise_sortKeys ((buildTable lines).map (fun kv => kv.1))
  exact (hle.and hnd').imp fun h => (strLt_iff_le_ne _ _).mpr h

/-- C5 (confirmed).  If `c` is the last inserted record whose identifier
normalizes to `k`, the loaded table holds exactly one entry for `k` and that
entry is `c` (so its title comes from the last such line); and every
recorded warning points at a line with fewer than two fields, so the
earlier duplicate never produces a warning. -/
theorem c5_last_write_wins :
    ∀ (lines : List Bytes) (k : Bytes) (c : Course),
      ((recordsOf lines).filter (fun r => r.number == k)).getLast? = some c →
      ((buildTable lines).countP (fun kv => decide (kv.1 = k)) = 1 ∧
       lookupTable (buildTable lines) k = some c ∧
       ∀ m ∈ loadWarnings lines,
         processLine (lines.getD (m - 1) []) = .malformed) := by
  intro lines k c h
  have hl : lookupTable (buildTable lines) k = some c := by
    rw [lookup_buildTable]; exact h
  refine ⟨countP_key_eq_one _ k c (nodup_keys_buildTable lines) hl, hl, ?_⟩
  intro m hm
  rcases (mem_loadWarnings lines m).mp hm with ⟨i, hi, rfl, hp⟩
  have hidx : 1 + i - 1 = i := by omega
  rw [hidx]
  exact hp

/-- C5, witness at the spec's own example: `"CS200,First"` followed by
`"cs-200,Second"` yields one entry keyed `CS200` titled `Second`. -/
theorem c5_witness :
    (((recordsOf [str "CS200,First", str "cs-200,Second"]).filter
        (fun r => r.number == str "CS200")).getLast? =
      some ⟨str "CS200", str "Second", []⟩) ∧
    ((buildTable [str "CS200,First", str "cs-200,Second"]).countP
        (fun kv => decide (kv.1 = str "CS200")) = 1 ∧
     lookupTable (buildTable [str "CS200,First", str "cs-200,Second"])
        (str "CS200") = some ⟨str "CS200", str "Second", []⟩ ∧
     ∀ m ∈ loadWarnings [str "CS200,First", str "cs-200,Second"],
       processLine (([str "CS200,First", str "cs-200,Second"] :
         List Bytes).getD (m - 1) []) = .malformed) :=
  ⟨by decide, c5_last_write_wins _ _ _ (by decide)⟩

/-- C6 (confirmed).  The parser splits only on commas outside quoted spans,
turns a doubled quote inside a quoted span into one literal quote (the
spec's round-trip example and an escaped-quote instance), and yields at
least one field on every input line, the empty line included. -/
theorem c6_parser_quoting :
    splitCSV (str "CSCI200,\"Data Structures, with Labs\",CSCI100") =
      [str "CSCI200", str "Data Structures, with Labs", str "CSCI100"] ∧
    splitCSV (str "\"a\"\"b\"") = [str "a\"b"] ∧
    (∀ line : Bytes, 1 ≤ (splitCSV line).length) :=
  ⟨by decide, by decide, splitCSV_length⟩

/-- C7 (confirmed).  For a loaded state and a found course, the output is the
course's `(number, title)` followed by the per-prerequisite resolution of
`prereqNumbers` in original order — `(number, title)` of the prerequisite
when its key is in the table, the original id with the `missing` marker when
it is not — while an empty prerequisite list produces the explicit
`noPrereqs` marker instead of an empty sequence. -/
theorem c7_describe_found :
    ∀ (st : ProgramState) (q : Bytes) (c : Course),
      st.loaded = true →
      normalizeCourseId q ≠ [] →
      lookupTable st.courses (normalizeCourseId q) = some c →
      (printSingleCourse st q =
        .found c.number c.title
          (if c.prereqNumbers = [] then PrereqDisplay.noPrereqs
           else PrereqDisplay.resolved
             (c.prereqNumbers.map (resolvePrereq st.courses))) ∧
       (∀ pid p, lookupTable st.courses pid = some p →
          resolvePrereq st.courses pid = .found p.number p.title) ∧
       (∀ pid, lookupTable st.courses pid = none →
          resolvePrereq st.courses pid = .missing pid)) := by
  intro st q c hld hq hl
  refine ⟨?_, ?_, ?_⟩
  · have hie : (normalizeCourseId q).isEmpty = false := isEmpty_false_of_ne hq
    simp [printSingleCourse, hld, hie, hl, List.isEmpty_eq_true]
  · intro pid p hp
    rw [resolvePrereq, hp]
  · intro pid hp
    rw [resolvePrereq, hp]

/-- C7, witness: a loaded single-course catalog where `CS300` has the
dangling prerequisite `CS999`, queried as `"cs 300"`. -/
theorem c7_witness :
    (((loadCoursesFromFile (some [str "CS300,Algo,CS999"])
        ⟨false, [], []⟩).2).loaded = true ∧
     normalizeCourseId (str "cs 300") ≠ [] ∧
     lookupTable ((loadCoursesFromFile (some [str "CS300,Algo,CS999"])
        ⟨false, [], []⟩).2).courses (normalizeCourseId (str "cs 300")) =
       some ⟨str "CS300", str "Algo", [str "CS999"]⟩) ∧
    (printSingleCourse
        ((loadCoursesFromFile (some [str "CS300,Algo,CS999"])
          ⟨false, [], []⟩).2) (str "cs 300") =
      .found (str "CS300") (str "Algo")
        (if ([str "CS999"] : List Bytes) = [] then PrereqDisplay.noPrereqs
         else PrereqDisplay.resolved ([str "CS999"].map
           (resolvePrereq ((loadCoursesFromFile (some [str "CS300,Algo,CS999"])
             ⟨false, [], []⟩).2).courses))) ∧
     (∀ pid p, lookupTable ((loadCoursesFromFile (some [str "CS300,Algo,CS999"])
          ⟨false, [], []⟩).2).courses pid = some p →
        resolvePrereq ((loadCoursesFromFile (some [str "CS300,Algo,CS999"])
          ⟨false, [], []⟩).2).courses pid = .found p.number p.title) ∧
     (∀ pid, lookupTable ((loadCoursesFromFile (some [str "CS300,Algo,CS999"])
          ⟨false, [], []⟩).2).courses pid = none →
        resolvePrereq ((loadCoursesFromFile (some [str "CS300,Algo,CS999"])
          ⟨false, [], []⟩).2).courses pid = .missing pid)) :=
  ⟨⟨by decide, by decide, by decide⟩,
    c7_describe_found _ (str "cs 300") ⟨str "CS300", str "Algo", [str "CS999"]⟩
      (by decide) (by decide) (by decide)⟩

/-- C8 (confirmed).  On a loaded state, the query outcome is `emptyQuery`
exactly when the query normalizes to the empty string; that outcome depends
only on the query, never on the table (no lookup is involved); a non-empty
normalized key absent from the table yields the distinct `notFound`
outcome. -/
theorem c8_empty_vs_not_found :
    ∀ (st : ProgramState) (q : Bytes),
      st.loaded = true →
      ((printSingleCourse st q = .emptyQuery ↔ normalizeCourseId q = []) ∧
       (normalizeCourseId q ≠ [] →
         lookupTable st.courses (normalizeCourseId q) = none →
         printSingleCourse st q = .notFound) ∧
       (∀ (t : CourseTable) (idx : List Bytes), normalizeCourseId q = [] →
         printSingleCourse ⟨true, t, idx⟩ q = .emptyQuery) ∧
       DescribeResult.emptyQuery ≠ DescribeResult.notFound) := by
  intro st q hld
  refine ⟨⟨?_, ?_⟩, ?_, ?_, by decide⟩
  · intro h
    by_cases hq : normalizeCourseId q = []
    · exact hq
    · exfalso
      have hie : (normalizeCourseId q).isEmpty = false := isEmpty_false_of_ne hq
      rw [printSingleCourse] at h
      simp only [hld, if_true, hie, Bool.false_eq_true, if_false] at h
      cases hlk : lookupTable st.courses (normalizeCourseId q) <;>
        rw [hlk] at h <;> simp at h
  · intro hq
    simp [printSingleCourse, hld, hq]
  · intro hq hlk
    have hie : (normalizeCourseId q).isEmpty = false := isEmpty_false_of_ne hq
    simp [printSingleCourse, hld, hie, hlk]
  · intro t idx hq
    simp [printSingleCourse, hq]

/-- C8, witness: on a loaded state, the all-whitespace query `"   "` signals
`emptyQuery` and `emptyQuery` is not `notFound`. -/
theorem c8_witness :
    (⟨true, [], []⟩ : ProgramState).loaded = true ∧
    ((printSingleCourse ⟨true, [], []⟩ (str "   ") = .emptyQuery ↔
        normalizeCourseId (str "   ") = []) ∧
     (normalizeCourseId (str "   ") ≠ [] →
       lookupTable (⟨true, [], []⟩ : ProgramState).courses
         (normalizeCourseId (str "   ")) = none →
       printSingleCourse ⟨true, [], []⟩ (str "   ") = .notFound) ∧
     (∀ (t : CourseTable) (idx : List Bytes),
        normalizeCourseId (str "   ") = [] →
        printSingleCourse ⟨true, t, idx⟩ (str "   ") = .emptyQuery) ∧
     DescribeResult.emptyQuery ≠ DescribeResult.notFound) :=
  ⟨rfl, c8_empty_vs_not_found ⟨true, [], []⟩ (str "   ") rfl⟩

/-- C9 (confirmed).  Normalization is idempotent, and satisfies the spec's
examples. -/
theorem c9_normalize_idempotent :
    (∀ s : Bytes, normalizeCourseId (normalizeCourseId s) = normalizeCourseId s) ∧
    normalizeCourseId (str "cs-200") = str "CS200" ∧
    normalizeCourseId (str "  cs 200 ") = str "CS200" ∧
    normalizeCourseId (str "CSCI,100") = str "CSCI100" ∧
    normalizeCourseId (str "") = str "" :=
  ⟨normalizeCourseId_idem, by decide, by decide, by decide, by decide⟩

/-- C10 (confirmed).  The `loaded` flag is monotone: once it is true, no
sequence of further menu operations — failed load attempts included — ever
resets it to false. -/
theorem c10_loaded_monotone :
    ∀ (ops : List Operation) (st : ProgramState),
      st.loaded = true → (ops.foldl applyOp st).loaded = true := by
  intro ops
  induction ops with
  | nil => exact fun st h => h
  | cons op ops ih =>
    intro st h
    rw [List.foldl_cons]
    apply ih
    cases op with
    | load src =>
      cases src with
      | none => exact h
      | some lines => rfl
    | listCourses => exact h
    | describe q => exact h

/-- C10, witness: after a failed load attempt and a query, a loaded state is
still loaded. -/
theorem c10_witness :
    (⟨true, [], []⟩ : ProgramState).loaded = true ∧
    (([Operation.load none, Operation.describe (str "x")].foldl applyOp
      ⟨true, [], []⟩).loaded = true) :=
  ⟨rfl, c10_loaded_monotone [Operation.load none, Operation.describe (str "x")]
    ⟨true, [], []⟩ rfl⟩
